import Mathlib

/-!
# Verification of the omnipub bulk-upload client (`transform.go`)

A shallow embedding of the transform-to-omnipub client.  Strings are
modelled as `List Char` (Go strings are byte sequences; all constants
involved are ASCII, so a character-level model is faithful).  Pure helpers
(`cleanHTML`, `buildHTML`, `buildMetadata`, `readFileList`,
`saveFilesToFile`, the outcome classification of `postItem`, and the
constructor `NewTransformer`) are translated directly from the source.
The concurrent worker pool of `main` is modelled as a small-step
transition system over pool states, quantified over all interleavings.
-/

namespace Omnipub

/-- Shorthand: the character list of a string literal. -/
def cs (s : String) : List Char := s.toList

/-! ## Go `unicode.IsSpace` and `strings.TrimSpace`

Used by `readFileList` (transform.go line 277) and by the error detail of
`postItem` (line 139). -/

/-- Go's `unicode.IsSpace`: '\t', '\n', '\v', '\f', '\r', ' ', U+0085,
U+00A0, plus the White_Space code points above Latin-1. -/
def goIsSpace (c : Char) : Bool :=
  c = ' ' ∨ (Char.ofNat 9 ≤ c ∧ c ≤ Char.ofNat 13) ∨
  c = Char.ofNat 0x85 ∨ c = Char.ofNat 0xA0 ∨
  c = Char.ofNat 0x1680 ∨
  (Char.ofNat 0x2000 ≤ c ∧ c ≤ Char.ofNat 0x200A) ∨
  c = Char.ofNat 0x2028 ∨ c = Char.ofNat 0x2029 ∨
  c = Char.ofNat 0x202F ∨ c = Char.ofNat 0x205F ∨ c = Char.ofNat 0x3000

/-- Leading half of `strings.TrimSpace`: drop leading white space. -/
def trimLeft (l : List Char) : List Char := l.dropWhile goIsSpace

/-- Trailing half of `strings.TrimSpace`: drop trailing white space. -/
def trimRight (l : List Char) : List Char :=
  (l.reverse.dropWhile goIsSpace).reverse

/-- Go `strings.TrimSpace`: remove leading and trailing white space. -/
def trimSpace (l : List Char) : List Char := trimRight (trimLeft l)

/-! ## `cleanHTML` (transform.go lines 75-79)

`strings.NewReplacer("<script", "&lt;script", "</script>", "&lt;/script&gt;")`
scans the input left to right; at each position the patterns are tried in
argument order, on a match the replacement is emitted and the scan resumes
after the matched pattern, and an unmatched character is copied verbatim. -/

/-- The first pattern of the replacer. -/
def scrOpen : List Char := cs "<script"

/-- The second pattern of the replacer. -/
def scrClose : List Char := cs "</script>"

/-- Replacement for `scrOpen`. -/
def escOpen : List Char := cs "&lt;script"

/-- Replacement for `scrClose`. -/
def escClose : List Char := cs "&lt;/script&gt;"

/-- The one-pass replacer applied by `cleanHTML`, character-list level. -/
def cleanHTML : List Char → List Char
  | [] => []
  | c :: rest =>
    if scrOpen.isPrefixOf (c :: rest) then escOpen ++ cleanHTML (rest.drop 6)
    else if scrClose.isPrefixOf (c :: rest) then escClose ++ cleanHTML (rest.drop 8)
    else c :: cleanHTML rest
termination_by l => l.length
decreasing_by
  · simp [List.length_drop]; omega
  · simp [List.length_drop]; omega
  · simp

theorem cleanHTML_nil : cleanHTML [] = [] := by rw [cleanHTML]

theorem cleanHTML_cons_open (c : Char) (rest : List Char)
    (h : scrOpen.isPrefixOf (c :: rest) = true) :
    cleanHTML (c :: rest) = escOpen ++ cleanHTML (rest.drop 6) := by
  rw [cleanHTML, if_pos h]

theorem cleanHTML_cons_close (c : Char) (rest : List Char)
    (h1 : ¬ scrOpen.isPrefixOf (c :: rest) = true)
    (h2 : scrClose.isPrefixOf (c :: rest) = true) :
    cleanHTML (c :: rest) = escClose ++ cleanHTML (rest.drop 8) := by
  rw [cleanHTML, if_neg h1, if_pos h2]

theorem cleanHTML_cons_skip (c : Char) (rest : List Char)
    (h1 : ¬ scrOpen.isPrefixOf (c :: rest) = true)
    (h2 : ¬ scrClose.isPrefixOf (c :: rest) = true) :
    cleanHTML (c :: rest) = c :: cleanHTML rest := by
  rw [cleanHTML, if_neg h1, if_neg h2]

/-- A pattern-free prefix of the output reflects to a prefix of the input:
both replacement strings start with the character `&`. -/
theorem prefix_cleanHTML_reflect :
    ∀ t w : List Char, '&' ∉ w → w <+: cleanHTML t → w <+: t := by
  intro t
  induction t using cleanHTML.induct with
  | case1 =>
    intro w _ hw
    rw [cleanHTML_nil] at hw
    simpa using hw
  | case2 c rest h ih =>
    intro w hamp hw
    rw [cleanHTML_cons_open c rest h] at hw
    match w, hw with
    | [], _ => exact List.nil_prefix
    | a :: w', hw =>
      have he : escOpen ++ cleanHTML (rest.drop 6) =
          '&' :: (cs "lt;script" ++ cleanHTML (rest.drop 6)) := rfl
      rw [he, List.cons_prefix_cons] at hw
      refine absurd ?_ hamp
      rw [hw.1]
      exact List.mem_cons_self '&' w'
  | case3 c rest h1 h2 ih =>
    intro w hamp hw
    rw [cleanHTML_cons_close c rest h1 h2] at hw
    match w, hw with
    | [], _ => exact List.nil_prefix
    | a :: w', hw =>
      have he : escClose ++ cleanHTML (rest.drop 8) =
          '&' :: (cs "lt;/script&gt;" ++ cleanHTML (rest.drop 8)) := rfl
      rw [he, List.cons_prefix_cons] at hw
      refine absurd ?_ hamp
      rw [hw.1]
      exact List.mem_cons_self '&' w'
  | case4 c rest h1 h2 ih =>
    intro w hamp hw
    rw [cleanHTML_cons_skip c rest h1 h2] at hw
    match w, hw with
    | [], _ => exact List.nil_prefix
    | a :: w', hw =>
      rw [List.cons_prefix_cons] at hw
      rw [List.mem_cons] at hamp
      push_neg at hamp
      exact List.cons_prefix_cons.mpr ⟨hw.1, ih w' hamp.2 hw.2⟩

/-- An infix starting with `<` of `a ++ b` where `a` is `<`-free lies
entirely in `b`. -/
theorem infix_append_right (p a b : List Char) (ha : '<' ∉ a) :
    ('<' :: p) <:+: a ++ b → ('<' :: p) <:+: b := by
  induction a with
  | nil => intro h; simpa using h
  | cons x a ih =>
    intro h
    rw [List.mem_cons] at ha
    push_neg at ha
    rw [List.cons_append, List.infix_cons_iff] at h
    rcases h with h | h
    · rw [List.cons_prefix_cons] at h
      exact absurd h.1 ha.1
    · exact ih ha.2 h

theorem scrOpen_eq : scrOpen = '<' :: cs "script" := rfl

theorem scrClose_eq : scrClose = '<' :: cs "/script>" := rfl

/-- The output of `cleanHTML` contains no occurrence of either pattern. -/
theorem cleanHTML_no_pattern (s : List Char) :
    ¬ scrOpen <:+: cleanHTML s ∧ ¬ scrClose <:+: cleanHTML s := by
  induction s using cleanHTML.induct with
  | case1 =>
    rw [cleanHTML_nil]
    constructor <;> · intro h; rw [List.infix_nil] at h; exact absurd h (by decide)
  | case2 c rest h ih =>
    rw [cleanHTML_cons_open c rest h]
    constructor
    · intro hi
      rw [scrOpen_eq] at hi
      exact ih.1 (scrOpen_eq ▸ infix_append_right _ escOpen _ (by decide) hi)
    · intro hi
      rw [scrClose_eq] at hi
      exact ih.2 (scrClose_eq ▸ infix_append_right _ escOpen _ (by decide) hi)
  | case3 c rest h1 h2 ih =>
    rw [cleanHTML_cons_close c rest h1 h2]
    constructor
    · intro hi
      rw [scrOpen_eq] at hi
      exact ih.1 (scrOpen_eq ▸ infix_append_right _ escClose _ (by decide) hi)
    · intro hi
      rw [scrClose_eq] at hi
      exact ih.2 (scrClose_eq ▸ infix_append_right _ escClose _ (by decide) hi)
  | case4 c rest h1 h2 ih =>
    rw [cleanHTML_cons_skip c rest h1 h2]
    constructor
    · intro hi
      rw [List.infix_cons_iff] at hi
      rcases hi with hi | hi
      · rw [scrOpen_eq, List.cons_prefix_cons] at hi
        have hr : cs "script" <+: rest :=
          prefix_cleanHTML_reflect rest _ (by decide) hi.2
        exact h1 (by
          rw [List.isPrefixOf_iff_prefix, scrOpen_eq]
          exact List.cons_prefix_cons.mpr ⟨hi.1, hr⟩)
      · exact ih.1 hi
    · intro hi
      rw [List.infix_cons_iff] at hi
      rcases hi with hi | hi
      · rw [scrClose_eq, List.cons_prefix_cons] at hi
        have hr : cs "/script>" <+: rest :=
          prefix_cleanHTML_reflect rest _ (by decide) hi.2
        exact h2 (by
          rw [List.isPrefixOf_iff_prefix, scrClose_eq]
          exact List.cons_prefix_cons.mpr ⟨hi.1, hr⟩)
      · exact ih.2 hi

/-- Pattern-free strings are left unchanged by `cleanHTML`. -/
theorem cleanHTML_id (s : List Char)
    (h1 : ¬ scrOpen <:+: s) (h2 : ¬ scrClose <:+: s) : cleanHTML s = s := by
  induction s using cleanHTML.induct with
  | case1 => exact cleanHTML_nil
  | case2 c rest h ih =>
    rw [List.isPrefixOf_iff_prefix] at h
    exact absurd h.isInfix h1
  | case3 c rest h1' h2' ih =>
    rw [List.isPrefixOf_iff_prefix] at h2'
    exact absurd h2'.isInfix h2
  | case4 c rest ha hb ih =>
    rw [cleanHTML_cons_skip c rest ha hb]
    rw [ih (fun hi => h1 (List.infix_cons hi)) (fun hi => h2 (List.infix_cons hi))]

/-- Consuming an occurrence of the first pattern emits `escOpen` and resumes
after the pattern. -/
theorem cleanHTML_open_append (t : List Char) :
    cleanHTML (scrOpen ++ t) = escOpen ++ cleanHTML t := by
  have hsh : scrOpen ++ t = '<' :: (cs "script" ++ t) := rfl
  rw [hsh, cleanHTML_cons_open]
  · rw [show (6 : Nat) = (cs "script").length from rfl, List.drop_left]
  · rw [List.isPrefixOf_iff_prefix, ← hsh]
    exact List.prefix_append _ _

/-- Consuming an occurrence of the second pattern emits `escClose` and
resumes after the pattern. -/
theorem cleanHTML_close_append (t : List Char) :
    cleanHTML (scrClose ++ t) = escClose ++ cleanHTML t := by
  have hsh : scrClose ++ t = '<' :: (cs "/script>" ++ t) := rfl
  rw [hsh, cleanHTML_cons_close]
  · rw [show (8 : Nat) = (cs "/script>").length from rfl, List.drop_left]
  · rw [List.isPrefixOf_iff_prefix]
    intro h
    rw [show scrOpen = '<' :: 's' :: cs "cript" from rfl,
        show '<' :: (cs "/script>" ++ t) = '<' :: '/' :: (cs "script>" ++ t) from rfl,
        List.cons_prefix_cons, List.cons_prefix_cons] at h
    exact absurd h.2.1 (by decide)
  · rw [List.isPrefixOf_iff_prefix, ← hsh]
    exact List.prefix_append _ _

/-- C2: `cleanHTML` replaces every literal occurrence of `<script` with
`&lt;script` and every literal occurrence of `</script>` with
`&lt;/script&gt;`, case-sensitively, and leaves all other characters
unchanged.  The first three conjuncts characterize the scan completely
(pattern consumed and replaced, other characters copied); the fourth states
that pattern-free input passes through unchanged; the fifth that no literal
`<script` or `</script>` survives in any output; the last two are the
spec's concrete examples: `<script>alert(1)</script>` is fully neutralized
while `<b>bold</b>` passes through unescaped. -/
theorem cleanHTML_script_neutralization :
    (∀ t : List Char, cleanHTML (scrOpen ++ t) = escOpen ++ cleanHTML t) ∧
    (∀ t : List Char, cleanHTML (scrClose ++ t) = escClose ++ cleanHTML t) ∧
    (∀ (c : Char) (t : List Char), ¬ scrOpen <+: (c :: t) → ¬ scrClose <+: (c :: t) →
        cleanHTML (c :: t) = c :: cleanHTML t) ∧
    (∀ s : List Char, ¬ scrOpen <:+: s → ¬ scrClose <:+: s → cleanHTML s = s) ∧
    (∀ s : List Char, ¬ scrOpen <:+: cleanHTML s ∧ ¬ scrClose <:+: cleanHTML s) ∧
    cleanHTML (cs "<script>alert(1)</script>") = cs "&lt;script>alert(1)&lt;/script&gt;" ∧
    cleanHTML (cs "<b>bold</b>") = cs "<b>bold</b>" := by
  refine ⟨cleanHTML_open_append, cleanHTML_close_append, ?_, cleanHTML_id,
      cleanHTML_no_pattern, ?_, ?_⟩
  · intro c t h1 h2
    exact cleanHTML_cons_skip c t
      (by rw [List.isPrefixOf_iff_prefix]; exact h1)
      (by rw [List.isPrefixOf_iff_prefix]; exact h2)
  · simp +decide [cleanHTML, scrOpen, scrClose, escOpen, escClose, cs]
  · simp +decide [cleanHTML, scrOpen, scrClose, escOpen, escClose, cs]

/-- C2 witness: the hypotheses of the conditional conjuncts hold at concrete
inputs and the conclusions evaluate there. -/
theorem cleanHTML_script_neutralization_witness :
    (¬ scrOpen <+: ['x'] ∧ ¬ scrClose <+: ['x'] ∧
      cleanHTML ['x'] = 'x' :: cleanHTML []) ∧
    (¬ scrOpen <:+: cs "<b>bold</b>" ∧ ¬ scrClose <:+: cs "<b>bold</b>" ∧
      cleanHTML (cs "<b>bold</b>") = cs "<b>bold</b>") :=
  ⟨⟨by decide, by decide,
      cleanHTML_script_neutralization.2.2.1 'x' [] (by decide) (by decide)⟩,
   ⟨by decide, by decide,
      cleanHTML_script_neutralization.2.2.2.1 (cs "<b>bold</b>") (by decide) (by decide)⟩⟩

/-! ## `html.EscapeString`, the `Article` record, `buildHTML` and
`buildMetadata` (transform.go lines 27-34 and 81-103) -/

/-- Go `html.EscapeString` on one character: the five special characters
`&`, `'`, `<`, `>`, `"` become entities, everything else is unchanged.
`Char.ofNat 39` is the apostrophe. -/
def escapeChar (c : Char) : List Char :=
  if c = '&' then cs "&amp;"
  else if c = Char.ofNat 39 then cs "&#39;"
  else if c = '<' then cs "&lt;"
  else if c = '>' then cs "&gt;"
  else if c = '"' then cs "&#34;"
  else [c]

/-- Go `html.EscapeString`: escape each character in turn. -/
def escapeString (l : List Char) : List Char := (l.map escapeChar).flatten

/-- The decoded article record (transform.go lines 27-34). -/
structure Article where
  title : List Char
  content : List Char
  excerpt : List Char
  link : List Char
  publishDate : List Char
  updatedDate : List Char

/-- `buildHTML` (transform.go lines 81-95): the rendered HTML fragment,
assembled exactly in the source's `WriteString` order. -/
def buildHTML (a : Article) : List Char :=
  cs "<h1>" ++ escapeString a.title ++ cs "</h1>\n" ++
  (if a.excerpt ≠ [] then cs "<p>" ++ escapeString a.excerpt ++ cs "</p>\n" else []) ++
  cs "<div>\n" ++ cleanHTML a.content ++ cs "\n</div>\n" ++
  cs "<h3>Metadata</h3>\n" ++
  cs "<p>Source Url: <a href=\"" ++ a.link ++ cs "\">" ++ a.link ++ cs "</a></p>" ++
  cs "<p>Published Date: " ++ a.publishDate ++ cs "</p>" ++
  cs "<p>Updated Date: " ++ a.updatedDate ++ cs "</p>"

/-- `buildMetadata` (transform.go lines 97-103), as the association list of
the Go map literal. -/
def buildMetadata (a : Article) : List (String × List Char) :=
  [("title", a.title), ("creation_date", a.publishDate), ("source_url", a.link)]

/-- Title heading, as the claim describes it. -/
def specTitleHeading (a : Article) : List Char :=
  cs "<h1>" ++ escapeString a.title ++ cs "</h1>\n"

/-- Excerpt paragraph, present exactly when the excerpt is non-empty, as the
claim describes it. -/
def specExcerptPara (a : Article) : List Char :=
  if a.excerpt = [] then [] else cs "<p>" ++ escapeString a.excerpt ++ cs "</p>\n"

/-- Content container, as the claim describes it. -/
def specContentContainer (a : Article) : List Char :=
  cs "<div>\n" ++ cleanHTML a.content ++ cs "\n</div>\n"

/-- Metadata block, as the claim describes it: heading, source hyperlink
whose visible text is the URL, then the two dates emitted verbatim. -/
def specMetadataBlock (a : Article) : List Char :=
  cs "<h3>Metadata</h3>\n" ++
  (cs "<p>Source Url: <a href=\"" ++ a.link ++ cs "\">" ++ a.link ++ cs "</a></p>") ++
  (cs "<p>Published Date: " ++ a.publishDate ++ cs "</p>") ++
  (cs "<p>Updated Date: " ++ a.updatedDate ++ cs "</p>")

/-- C7: the rendered HTML is, in fixed order, the escaped title heading,
the escaped excerpt paragraph (present iff the excerpt is non-empty), the
cleaned content inside the `div` container, and the metadata block listing
the source hyperlink (visible text equal to the URL) and the two dates
verbatim without HTML escaping. -/
theorem buildHTML_structure (a : Article) :
    buildHTML a =
      specTitleHeading a ++ specExcerptPara a ++ specContentContainer a ++
        specMetadataBlock a ∧
    (specExcerptPara a = [] ↔ a.excerpt = []) ∧
    (a.excerpt ≠ [] →
      specExcerptPara a = cs "<p>" ++ escapeString a.excerpt ++ cs "</p>\n") := by
  refine ⟨?_, ?_, ?_⟩
  · by_cases he : a.excerpt = [] <;>
      simp [buildHTML, specTitleHeading, specExcerptPara, specContentContainer,
        specMetadataBlock, he, List.append_assoc]
  · constructor
    · intro h
      by_contra he
      rw [specExcerptPara, if_neg he] at h
      exact absurd (congrArg List.length h) (by simp [cs])
    · intro h; rw [specExcerptPara, if_pos h]
  · intro h; rw [specExcerptPara, if_neg h]

/-- C7 witness: the structure theorem applied to a concrete article with a
non-empty excerpt. -/
theorem buildHTML_structure_witness :
    (Article.mk (cs "T") (cs "C") (cs "E") (cs "L") (cs "P") (cs "U")).excerpt ≠ [] ∧
    specExcerptPara (Article.mk (cs "T") (cs "C") (cs "E") (cs "L") (cs "P") (cs "U")) =
      cs "<p>" ++
        escapeString (Article.mk (cs "T") (cs "C") (cs "E") (cs "L") (cs "P") (cs "U")).excerpt ++
        cs "</p>\n" :=
  ⟨by decide,
   (buildHTML_structure (Article.mk (cs "T") (cs "C") (cs "E") (cs "L") (cs "P") (cs "U"))).2.2
     (by decide)⟩

/-- C8: the metadata mapping has exactly the three fixed keys `title`,
`creation_date` and `source_url`, in that association order, with the
title, publish date and link as values; the key list being exactly these
three, no other key is ever present. -/
theorem buildMetadata_exact_entries (a : Article) :
    (buildMetadata a).map Prod.fst = ["title", "creation_date", "source_url"] ∧
    (buildMetadata a).lookup "title" = some a.title ∧
    (buildMetadata a).lookup "creation_date" = some a.publishDate ∧
    (buildMetadata a).lookup "source_url" = some a.link ∧
    (buildMetadata a).length = 3 :=
  ⟨rfl, rfl, rfl, rfl, rfl⟩

/-- C10: the link field is inserted verbatim, with no escaping, both as the
`href` attribute value and as the hyperlink's visible text; the concrete
conjunct shows a link containing a double quote and an angle bracket
appearing literally in both positions. -/
theorem buildHTML_link_verbatim :
    (∀ a : Article, buildHTML a =
      (specTitleHeading a ++ specExcerptPara a ++ specContentContainer a ++
        cs "<h3>Metadata</h3>\n" ++ cs "<p>Source Url: ") ++
      (cs "<a href=\"" ++ a.link ++ cs "\">" ++ a.link ++ cs "</a>") ++
      (cs "</p>" ++ cs "<p>Published Date: " ++ a.publishDate ++ cs "</p>" ++
        cs "<p>Updated Date: " ++ a.updatedDate ++ cs "</p>")) ∧
    buildHTML (Article.mk [] [] [] (cs "x\"<y") [] []) =
      cs "<h1></h1>\n<div>\n\n</div>\n<h3>Metadata</h3>\n<p>Source Url: <a href=\"x\"<y\">x\"<y</a></p><p>Published Date: </p><p>Updated Date: </p>" := by
  constructor
  · intro a
    have h1 : cs "<p>Source Url: <a href=\"" = cs "<p>Source Url: " ++ cs "<a href=\"" := by
      decide
    have h2 : cs "</a></p>" = cs "</a>" ++ cs "</p>" := by decide
    by_cases he : a.excerpt = [] <;>
      simp [buildHTML, specTitleHeading, specExcerptPara, specContentContainer,
        he, List.append_assoc, h1, h2]
  · simp +decide [buildHTML, escapeString, cleanHTML_nil, cs]

/-! ## `postItem`'s outcome classification and multipart body
(transform.go lines 109-140) -/

/-- Result of the transport call `t.client.Do(req)`: either a network-level
error carrying Go's error text, or an HTTP response. -/
inductive NetResult where
  | transportError (msg : List Char)
  | response (status : Int) (body : List Char)

/-- Outcome classification of `postItem` (lines 129-139): a transport error
is returned as-is; a 2xx status is success (`none`); any other status
yields `http <code> <detail>` where the detail is at most 4096 bytes of
the body (`io.LimitReader(resp.Body, 4<<10)`) with surrounding white space
trimmed. -/
def classifyResponse : NetResult → Option (List Char)
  | .transportError m => some m
  | .response st body =>
    if 200 ≤ st ∧ st < 300 then none
    else some (cs "http " ++ cs (toString st) ++ [' '] ++ trimSpace (body.take 4096))

theorem dropWhile_length_le (p : Char → Bool) (l : List Char) :
    (l.dropWhile p).length ≤ l.length :=
  (List.dropWhile_sublist p).length_le

theorem trimSpace_length_le (l : List Char) : (trimSpace l).length ≤ l.length := by
  calc (trimSpace l).length
      ≤ (trimLeft l).length := by
        rw [trimSpace, trimRight, List.length_reverse]
        calc (List.dropWhile goIsSpace (trimLeft l).reverse).length
            ≤ (trimLeft l).reverse.length := dropWhile_length_le _ _
          _ = (trimLeft l).length := List.length_reverse _
    _ ≤ l.length := dropWhile_length_le _ _

/-- C3: a submission succeeds iff the HTTP status is in `[200, 300)`; any
other status yields a failure detail containing the status code and at most
4096 bytes of the response body trimmed of surrounding white space; a
network-level error is a failure carrying the underlying error text. -/
theorem postItem_outcome_classification :
    (∀ (st : Int) (body : List Char),
        classifyResponse (.response st body) = none ↔ 200 ≤ st ∧ st < 300) ∧
    (∀ (st : Int) (body : List Char), ¬ (200 ≤ st ∧ st < 300) →
        classifyResponse (.response st body) =
          some (cs "http " ++ cs (toString st) ++ [' '] ++ trimSpace (body.take 4096)) ∧
        (trimSpace (body.take 4096)).length ≤ 4096 ∧
        cs (toString st) <:+:
          (cs "http " ++ cs (toString st) ++ [' '] ++ trimSpace (body.take 4096))) ∧
    (∀ m : List Char, classifyResponse (.transportError m) = some m) := by
  refine ⟨?_, ?_, fun m => rfl⟩
  · intro st body
    constructor
    · intro h
      by_contra hst
      rw [classifyResponse, if_neg hst] at h
      exact Option.noConfusion h
    · intro h; rw [classifyResponse, if_pos h]
  · intro st body h
    refine ⟨by rw [classifyResponse, if_neg h], ?_, ?_⟩
    · exact le_trans (trimSpace_length_le _) (by simp [List.length_take])
    · exact ⟨cs "http ", [' '] ++ trimSpace (body.take 4096), by simp [List.append_assoc]⟩

/-- C3 witness: the classification evaluated at a 404 with a padded body,
at a 200, and at a transport error. -/
theorem postItem_outcome_classification_witness :
    (¬ ((200 : Int) ≤ 404 ∧ (404 : Int) < 300) ∧
      classifyResponse (.response 404 (cs "  oops ")) =
        some (cs "http " ++ cs (toString (404 : Int)) ++ [' '] ++
          trimSpace ((cs "  oops ").take 4096))) ∧
    (classifyResponse (.response 200 []) = none ↔ (200 : Int) ≤ 200 ∧ (200 : Int) < 300) :=
  ⟨⟨by decide, (postItem_outcome_classification.2.1 404 (cs "  oops ") (by decide)).1⟩,
   postItem_outcome_classification.1 200 []⟩

/-- Multipart fields written by `postItem` (lines 114-119), in write order:
`html_content`, `metadata`, and `collection_id` (decimal) only when a
collection pointer was passed. -/
def postFields (htmlContent metaJson : List Char) (collectionID : Option Int) :
    List (String × List Char) :=
  [("html_content", htmlContent), ("metadata", metaJson)] ++
    (match collectionID with
     | some n => [("collection_id", cs (toString n))]
     | none => [])

/-- The collection argument computed in `main` (lines 223-228): the flag
value is passed to `postItem` only when strictly positive. -/
def mainCollectionArg (collection : Int) : Option Int :=
  if collection > 0 then some collection else none

/-- C6 counterexample: for the configured value `-1`, which is non-default
under the spec's convention that `0` means unset, the body carries no
`collection_id` field, so presence is not equivalent to being non-default. -/
theorem collection_id_nondefault_counterexample :
    ¬ (("collection_id" ∈ (postFields [] [] (mainCollectionArg (-1))).map Prod.fst) ↔
        (-1 : Int) ≠ 0) := by
  decide

/-- C6 amended: the multipart body contains a `collection_id` field,
serialized as a decimal integer, iff the configured collection value is
strictly positive; otherwise the body has exactly the `html_content` and
`metadata` fields. -/
theorem collection_id_field_iff_positive (htmlContent metaJson : List Char)
    (collection : Int) :
    (("collection_id" ∈
        (postFields htmlContent metaJson (mainCollectionArg collection)).map Prod.fst) ↔
      0 < collection) ∧
    (0 < collection →
      postFields htmlContent metaJson (mainCollectionArg collection) =
        [("html_content", htmlContent), ("metadata", metaJson),
         ("collection_id", cs (toString collection))]) ∧
    (¬ 0 < collection →
      postFields htmlContent metaJson (mainCollectionArg collection) =
        [("html_content", htmlContent), ("metadata", metaJson)]) := by
  by_cases hc : 0 < collection <;>
    simp [postFields, mainCollectionArg, hc]

/-- C6 witness: the amended statement applied at collection values 7 and 0. -/
theorem collection_id_field_iff_positive_witness :
    ((0 : Int) < 7 ∧
      postFields [] [] (mainCollectionArg 7) =
        [("html_content", []), ("metadata", []), ("collection_id", cs (toString (7 : Int)))]) ∧
    (¬ (0 : Int) < 0 ∧
      postFields [] [] (mainCollectionArg 0) = [("html_content", []), ("metadata", [])]) :=
  ⟨⟨by decide, (collection_id_field_iff_positive [] [] 7).2.1 (by decide)⟩,
   ⟨by decide, (collection_id_field_iff_positive [] [] 0).2.2 (by decide)⟩⟩

/-! ## `NewTransformer` and the startup phases of `main`
(transform.go lines 48-69 and 163-263) -/

/-- The configured state of the submitter: base URL (trailing slash
stripped) and the value of the `Authorization` default header. -/
structure Transformer where
  apiBase : List Char
  authHeader : List Char

/-- Go `strings.TrimSuffix(s, "/")`: remove one trailing slash if present. -/
def trimSuffixSlash (l : List Char) : List Char :=
  if l.getLast? = some '/' then l.dropLast else l

/-- `NewTransformer` (lines 48-69).  `keyVal` is the value of the
configured environment variable; Go's `os.Getenv` returns the empty string
both when the variable is unset and when it is set to the empty string. -/
def NewTransformer (apiBase envName keyVal : List Char) :
    Except (List Char) Transformer :=
  if keyVal = [] then .error (cs "env \"" ++ envName ++ cs "\" not set")
  else .ok ⟨trimSuffixSlash apiBase, cs "Bearer " ++ keyVal⟩

/-- Observable effects of one invocation of `main`. -/
structure RunReport where
  fatal : Bool
  inputCollected : Bool
  requestsIssued : Nat
  emptyNotice : Bool
  summary : Option (Nat × Nat)

/-- Phase model of `main` (lines 163-263): the constructor runs first and a
construction error is fatal (`log.Fatal`, line 177) before the input list
is read; then the input list is collected; an empty list prints the notice
of line 197 and returns before the pool and before the final summary line;
otherwise every item is processed and the `Done. Success/Failure` line is
printed.  Per-item interleaving is modelled separately by `PoolStep`; here
the pool is summarized by its per-item outcomes. -/
def runMain (apiBase envName keyVal : List Char) (files : List (List Char))
    (outcome : List Char → Bool) : RunReport :=
  match NewTransformer apiBase envName keyVal with
  | .error _ => ⟨true, false, 0, false, none⟩
  | .ok _ =>
    if files = [] then ⟨false, true, 0, true, none⟩
    else
      ⟨false, true, files.length, false,
        some ((files.map outcome).count true, (files.map outcome).count false)⟩

/-- C5: an unset or empty credential variable makes construction fail and
the run terminate fatally with no input read and no request issued; a
non-empty value yields a transformer whose `Authorization` header is
`Bearer ` followed by the value. -/
theorem missing_credential_fatal (apiBase envName keyVal : List Char)
    (files : List (List Char)) (outcome : List Char → Bool) :
    (keyVal = [] →
      NewTransformer apiBase envName keyVal =
        .error (cs "env \"" ++ envName ++ cs "\" not set") ∧
      runMain apiBase envName keyVal files outcome =
        ⟨true, false, 0, false, none⟩) ∧
    (keyVal ≠ [] →
      NewTransformer apiBase envName keyVal =
        .ok ⟨trimSuffixSlash apiBase, cs "Bearer " ++ keyVal⟩) := by
  constructor
  · intro hk
    constructor
    · rw [NewTransformer, if_pos hk]
    · rw [runMain, NewTransformer, if_pos hk]
  · intro hk
    rw [NewTransformer, if_neg hk]

/-- C5 witness: both branches at concrete credential values. -/
theorem missing_credential_fatal_witness :
    (runMain (cs "https://api.example.com/v2") (cs "OMNIPUB_API_KEY") [] [[]]
        (fun _ => true) = ⟨true, false, 0, false, none⟩) ∧
    (cs "k" ≠ [] ∧
      NewTransformer (cs "https://api.example.com/v2") (cs "OMNIPUB_API_KEY") (cs "k") =
        .ok ⟨trimSuffixSlash (cs "https://api.example.com/v2"), cs "Bearer " ++ cs "k"⟩) :=
  ⟨((missing_credential_fatal (cs "https://api.example.com/v2") (cs "OMNIPUB_API_KEY")
      [] [[]] (fun _ => true)).1 rfl).2,
   ⟨by decide,
    (missing_credential_fatal (cs "https://api.example.com/v2") (cs "OMNIPUB_API_KEY")
      (cs "k") [[]] (fun _ => true)).2 (by decide)⟩⟩

/-- C9 counterexample: with a valid credential and an empty input list the
run issues no request, but it prints only the `No files to process` notice
and returns before the summary line (line 198 precedes line 262), so no
`0 successes / 0 failures` summary is reported. -/
theorem empty_input_summary_counterexample :
    (runMain (cs "https://api.example.com/v2") (cs "OMNIPUB_API_KEY") (cs "k") []
        (fun _ => true)).requestsIssued = 0 ∧
    (runMain (cs "https://api.example.com/v2") (cs "OMNIPUB_API_KEY") (cs "k") []
        (fun _ => true)).emptyNotice = true ∧
    (runMain (cs "https://api.example.com/v2") (cs "OMNIPUB_API_KEY") (cs "k") []
        (fun _ => true)).summary ≠ some (0, 0) := by
  refine ⟨?_, ?_, ?_⟩ <;> simp [runMain, NewTransformer, cs]

/-- C9 amended: when the collected input list is empty the process
terminates immediately with the notice, issuing no network request and
performing zero uploads, but it does not print the numeric summary line. -/
theorem empty_input_notice (apiBase envName keyVal : List Char)
    (outcome : List Char → Bool) (hk : keyVal ≠ []) :
    runMain apiBase envName keyVal [] outcome = ⟨false, true, 0, true, none⟩ := by
  rw [runMain, NewTransformer, if_neg hk]
  rfl

/-- C9 witness: the amended statement at a concrete credential. -/
theorem empty_input_notice_witness :
    cs "k" ≠ [] ∧
    runMain (cs "https://api.example.com/v2") (cs "OMNIPUB_API_KEY") (cs "k") []
        (fun _ => true) = ⟨false, true, 0, true, none⟩ :=
  ⟨by decide,
   empty_input_notice (cs "https://api.example.com/v2") (cs "OMNIPUB_API_KEY") (cs "k")
     (fun _ => true) (by decide)⟩

/-! ## `readFileList` and `saveFilesToFile`
(transform.go lines 266-307) -/

/-- Token sequence of `bufio.Scanner` with `bufio.ScanLines`, before the
carriage-return strip: maximal `\n`-free runs; a trailing newline yields no
extra empty token. -/
def goLines : List Char → List (List Char)
  | [] => []
  | c :: rest =>
    ((c :: rest).takeWhile (fun x => x != '\n')) ::
      goLines ((c :: rest).drop (((c :: rest).takeWhile (fun x => x != '\n')).length + 1))
termination_by l => l.length
decreasing_by
  simp [List.length_drop]
  omega

/-- The `dropCR` step of `bufio.ScanLines`: strip one trailing `\r`. -/
def dropCR (l : List Char) : List Char :=
  if l.getLast? = some '\r' then l.dropLast else l

/-- `readFileList` (transform.go lines 266-288) applied to the file
contents: scan lines, trim white space, skip blank results. -/
def readFileList (content : List Char) : List (List Char) :=
  ((goLines content).map (fun l => trimSpace (dropCR l))).filter (fun l => !l.isEmpty)

/-- `saveFilesToFile` (transform.go lines 291-307): write each path
followed by a newline. -/
def saveFilesToFile (files : List (List Char)) : List Char :=
  (files.map (fun f => f ++ ['\n'])).flatten

theorem takeWhile_append_newline (f t : List Char) (hf : '\n' ∉ f) :
    (f ++ '\n' :: t).takeWhile (fun x => x != '\n') = f := by
  induction f with
  | nil => simp
  | cons a f ih =>
    rw [List.mem_cons] at hf
    push_neg at hf
    rw [List.cons_append, List.takeWhile_cons,
        if_pos (show (a != '\n') = true by simp [Ne.symm hf.1]), ih hf.2]

theorem goLines_cons (f t : List Char) (hf : '\n' ∉ f) :
    goLines (f ++ '\n' :: t) = f :: goLines t := by
  obtain ⟨c, rest, hc⟩ : ∃ c rest, f ++ '\n' :: t = c :: rest := by
    cases f with
    | nil => exact ⟨'\n', t, rfl⟩
    | cons a f => exact ⟨a, f ++ '\n' :: t, rfl⟩
  rw [hc, goLines, ← hc, takeWhile_append_newline f t hf]
  congr 1
  rw [show f ++ '\n' :: t = (f ++ ['\n']) ++ t by simp,
      show f.length + 1 = (f ++ ['\n']).length by simp,
      List.drop_left]

theorem trimRight_append_space (l : List Char) (c : Char) (hc : goIsSpace c = true) :
    trimRight (l ++ [c]) = trimRight l := by
  simp [trimRight, List.dropWhile_cons, hc]

theorem trimSpace_append_space (l : List Char) (c : Char) (hc : goIsSpace c = true) :
    trimSpace (l ++ [c]) = trimSpace l := by
  rw [trimSpace, trimSpace, trimLeft, trimLeft, List.dropWhile_append]
  by_cases he : (List.dropWhile goIsSpace l).isEmpty
  · rw [if_pos he]
    have h1 : List.dropWhile goIsSpace [c] = [] := by simp [List.dropWhile_cons, hc]
    rw [h1, List.isEmpty_iff.mp he]
  · rw [if_neg he]
    exact trimRight_append_space _ c hc

theorem trimSpace_dropCR (l : List Char) : trimSpace (dropCR l) = trimSpace l := by
  rw [dropCR]
  by_cases h : l.getLast? = some '\r'
  · rw [if_pos h]
    have hne : l ≠ [] := by intro he; rw [he] at h; exact Option.noConfusion h
    have hl : l.dropLast ++ [l.getLast hne] = l := List.dropLast_append_getLast hne
    have hr : l.getLast hne = '\r' := by
      have := List.getLast?_eq_getLast l hne
      rw [h] at this
      exact (Option.some_injective _ this.symm)
    rw [← hl, hr, trimSpace_append_space _ '\r' (by decide)]
    simp
  · rw [if_neg h]

/-- C4: writing a failure list and reading it back recovers the same list,
for identifiers that are non-empty, newline-free, and already trimmed. -/
theorem failure_list_round_trip (files : List (List Char))
    (h : ∀ f ∈ files, f ≠ [] ∧ '\n' ∉ f ∧ trimSpace f = f) :
    readFileList (saveFilesToFile files) = files := by
  induction files with
  | nil => simp [readFileList, saveFilesToFile, goLines]
  | cons f fs ih =>
    obtain ⟨hne, hnl, htr⟩ := h f (List.mem_cons_self f fs)
    have hsave : saveFilesToFile (f :: fs) = f ++ '\n' :: saveFilesToFile fs := by
      simp [saveFilesToFile]
    rw [readFileList, hsave, goLines_cons f _ hnl]
    have hcr : trimSpace (dropCR f) = f := by rw [trimSpace_dropCR, htr]
    rw [List.map_cons, List.filter_cons, hcr,
        if_pos (show (!f.isEmpty) = true by simp [hne])]
    congr 1
    exact ih (fun g hg => h g (List.mem_cons_of_mem f hg))

theorem failure_list_round_trip_witness :
    (∀ f ∈ [cs "a.json", cs "sub/b.json"], f ≠ [] ∧ '\n' ∉ f ∧ trimSpace f = f) ∧
    readFileList (saveFilesToFile [cs "a.json", cs "sub/b.json"]) =
      [cs "a.json", cs "sub/b.json"] :=
  ⟨by decide, failure_list_round_trip [cs "a.json", cs "sub/b.json"] (by decide)⟩

/-! ## The concurrent worker pool of `main`
(transform.go lines 203-250) -/

/-- Status of one worker goroutine of `main` (lines 213-243). -/
inductive WStatus where
  | idle : WStatus
  | busy : List Char → WStatus
  | done : WStatus
deriving DecidableEq

/-- Shared state of the pool: the buffered channel contents, the worker
statuses, the two counters `ok` and `fail`, and the log of items whose
processing has completed. -/
structure PoolState where
  queue : List (List Char)
  workers : List WStatus
  ok : Nat
  fail : Nat
  processed : List (List Char)
deriving DecidableEq

/-- Initial state (lines 203-213 and 245-249): every identifier enqueued
exactly once, `w` idle workers, zero counters. -/
def initState (input : List (List Char)) (w : Nat) : PoolState :=
  ⟨input, List.replicate w WStatus.idle, 0, 0, []⟩

/-- Items currently held by busy workers. -/
def busyItems : List WStatus → List (List Char)
  | [] => []
  | WStatus.busy x :: ws => x :: busyItems ws
  | WStatus.idle :: ws => busyItems ws
  | WStatus.done :: ws => busyItems ws

/-- One atomic interleaving step of the pool: a worker receives an item
from the channel (line 217), a worker completes an item and increments
exactly one of the two counters (lines 228-240), or a worker's range loop
ends on the closed, drained channel. -/
inductive PoolStep : PoolState → PoolState → Prop where
  | pull (s : PoolState) (i : Nat) (x : List Char) (rest : List (List Char))
      (hi : s.workers[i]? = some WStatus.idle) (hq : s.queue = x :: rest) :
      PoolStep s ⟨rest, s.workers.set i (WStatus.busy x), s.ok, s.fail, s.processed⟩
  | finish (s : PoolState) (i : Nat) (x : List Char) (success : Bool)
      (hi : s.workers[i]? = some (WStatus.busy x)) :
      PoolStep s ⟨s.queue, s.workers.set i WStatus.idle,
        (if success then s.ok + 1 else s.ok),
        (if success then s.fail else s.fail + 1),
        s.processed ++ [x]⟩
  | exit (s : PoolState) (i : Nat)
      (hi : s.workers[i]? = some WStatus.idle) (hq : s.queue = []) :
      PoolStep s ⟨[], s.workers.set i WStatus.done, s.ok, s.fail, s.processed⟩

/-- All workers have terminated: `wg.Wait()` has returned (line 250). -/
def Terminal (s : PoolState) : Prop := ∀ st ∈ s.workers, st = WStatus.done

/-- The pool invariant: fixed worker count; once any worker has exited, the
queue is empty; the queue, the in-flight items and the processed log
together are a permutation of the input; and the counters sum to the
number of processed items. -/
def Inv (input : List (List Char)) (w : Nat) (s : PoolState) : Prop :=
  s.workers.length = w ∧
  ((∃ st ∈ s.workers, st = WStatus.done) → s.queue = []) ∧
  (s.queue ++ busyItems s.workers ++ s.processed).Perm input ∧
  s.ok + s.fail = s.processed.length

theorem busyItems_replicate_idle (w : Nat) :
    busyItems (List.replicate w WStatus.idle) = [] := by
  induction w with
  | zero => rfl
  | succ n ih => rw [List.replicate_succ, busyItems, ih]

theorem busyItems_eq_nil (ws : List WStatus)
    (h : ∀ st ∈ ws, st = WStatus.done) : busyItems ws = [] := by
  induction ws with
  | nil => rfl
  | cons a tl ih =>
    have ha := h a (List.mem_cons_self a tl)
    subst ha
    rw [busyItems]
    exact ih (fun st hst => h st (List.mem_cons_of_mem _ hst))

theorem busyItems_set_busy (ws : List WStatus) (i : Nat) (x : List Char)
    (h : ws[i]? = some WStatus.idle) :
    (busyItems (ws.set i (WStatus.busy x))).Perm (x :: busyItems ws) := by
  induction ws generalizing i with
  | nil => rw [List.getElem?_nil] at h; exact Option.noConfusion h
  | cons a tl ih =>
    cases i with
    | zero =>
      rw [List.getElem?_cons_zero] at h
      have ha : a = WStatus.idle := Option.some_injective _ h
      subst ha
      rw [List.set_cons_zero, busyItems, busyItems]
    | succ n =>
      rw [List.getElem?_cons_succ] at h
      rw [List.set_cons_succ]
      cases a with
      | idle => rw [busyItems, busyItems]; exact ih n h
      | done => rw [busyItems, busyItems]; exact ih n h
      | busy y =>
        rw [busyItems, busyItems]
        exact ((ih n h).cons y).trans (List.Perm.swap x y (busyItems tl))

theorem busyItems_set_idle (ws : List WStatus) (i : Nat) (x : List Char)
    (h : ws[i]? = some (WStatus.busy x)) :
    (x :: busyItems (ws.set i WStatus.idle)).Perm (busyItems ws) := by
  induction ws generalizing i with
  | nil => rw [List.getElem?_nil] at h; exact Option.noConfusion h
  | cons a tl ih =>
    cases i with
    | zero =>
      rw [List.getElem?_cons_zero] at h
      have ha : a = WStatus.busy x := Option.some_injective _ h
      subst ha
      rw [List.set_cons_zero, busyItems, busyItems]
    | succ n =>
      rw [List.getElem?_cons_succ] at h
      rw [List.set_cons_succ]
      cases a with
      | idle => rw [busyItems, busyItems]; exact ih n h
      | done => rw [busyItems, busyItems]; exact ih n h
      | busy y =>
        rw [busyItems, busyItems]
        exact (List.Perm.swap y x (busyItems (tl.set n WStatus.idle))).trans
          ((ih n h).cons y)

theorem busyItems_set_done (ws : List WStatus) (i : Nat)
    (h : ws[i]? = some WStatus.idle) :
    busyItems (ws.set i WStatus.done) = busyItems ws := by
  induction ws generalizing i with
  | nil => rw [List.getElem?_nil] at h; exact Option.noConfusion h
  | cons a tl ih =>
    cases i with
    | zero =>
      rw [List.getElem?_cons_zero] at h
      have ha : a = WStatus.idle := Option.some_injective _ h
      subst ha
      rw [List.set_cons_zero, busyItems, busyItems]
    | succ n =>
      rw [List.getElem?_cons_succ] at h
      rw [List.set_cons_succ]
      cases a with
      | idle => rw [busyItems, busyItems]; exact ih n h
      | done => rw [busyItems, busyItems]; exact ih n h
      | busy y => rw [busyItems, busyItems, ih n h]

theorem inv_init (input : List (List Char)) (w : Nat) :
    Inv input w (initState input w) := by
  refine ⟨by simp [initState], ?_, ?_, rfl⟩
  · rintro ⟨st, hst, rfl⟩
    rw [initState] at hst
    simp only [List.mem_replicate] at hst
    exact absurd hst.2 (by decide)
  · rw [initState]
    simp [busyItems_replicate_idle]

theorem inv_step (input : List (List Char)) (w : Nat) (s t : PoolState)
    (hst : PoolStep s t) (hi : Inv input w s) : Inv input w t := by
  obtain ⟨hlen, hdq, hperm, hcnt⟩ := hi
  cases hst with
  | pull i x rest hw hq =>
    refine ⟨by simpa using hlen, ?_, ?_, hcnt⟩
    · rintro ⟨st, hst, rfl⟩
      rcases List.mem_or_eq_of_mem_set hst with hm | he
      · have := hdq ⟨WStatus.done, hm, rfl⟩
        rw [hq] at this
        exact absurd this (by simp)
      · exact WStatus.noConfusion he
    · rw [List.append_assoc] at hperm ⊢
      have h1 : (busyItems (s.workers.set i (WStatus.busy x))).Perm
          (x :: busyItems s.workers) := busyItems_set_busy s.workers i x hw
      have h2 : (rest ++ (busyItems (s.workers.set i (WStatus.busy x)) ++ s.processed)).Perm
          (rest ++ (x :: (busyItems s.workers ++ s.processed))) := by
        refine List.Perm.append_left rest ?_
        rw [← List.cons_append]
        exact h1.append_right s.processed
      have h3 : (rest ++ (x :: (busyItems s.workers ++ s.processed))).Perm
          (x :: (rest ++ (busyItems s.workers ++ s.processed))) := List.perm_middle
      have h4 : (x :: (rest ++ (busyItems s.workers ++ s.processed))).Perm input := by
        have hx : x :: (rest ++ (busyItems s.workers ++ s.processed)) =
            s.queue ++ (busyItems s.workers ++ s.processed) := by
          rw [hq, List.cons_append]
        rw [hx]
        exact hperm
      exact h2.trans (h3.trans h4)
  | finish i x success hw =>
    refine ⟨by simpa using hlen, ?_, ?_, ?_⟩
    · rintro ⟨st, hst, rfl⟩
      rcases List.mem_or_eq_of_mem_set hst with hm | he
      · exact hdq ⟨WStatus.done, hm, rfl⟩
      · exact WStatus.noConfusion he
    · rw [List.append_assoc] at hperm ⊢
      have h1 : (x :: busyItems (s.workers.set i WStatus.idle)).Perm
          (busyItems s.workers) := busyItems_set_idle s.workers i x hw
      have h2 : (s.queue ++
            (busyItems (s.workers.set i WStatus.idle) ++ (s.processed ++ [x]))).Perm
          (s.queue ++ (x :: (busyItems (s.workers.set i WStatus.idle) ++ s.processed))) := by
        refine List.Perm.append_left s.queue ?_
        refine List.Perm.trans
          (List.Perm.append_left _ (List.perm_append_singleton x s.processed)) ?_
        exact List.perm_middle
      have h3 : (s.queue ++
            (x :: (busyItems (s.workers.set i WStatus.idle) ++ s.processed))).Perm
          (s.queue ++ (busyItems s.workers ++ s.processed)) := by
        refine List.Perm.append_left s.queue ?_
        rw [← List.cons_append]
        exact h1.append_right s.processed
      exact h2.trans (h3.trans hperm)
    · rw [List.length_append, List.length_singleton, ← hcnt]
      cases success <;> simp <;> omega
  | exit i hw hq =>
    refine ⟨by simpa using hlen, fun _ => rfl, ?_, hcnt⟩
    rw [busyItems_set_done s.workers i hw, ← hq]
    exact hperm

theorem inv_reachable (input : List (List Char)) (w : Nat) (s : PoolState)
    (h : Relation.ReflTransGen PoolStep (initState input w) s) :
    Inv input w s := by
  induction h with
  | refl => exact inv_init input w
  | tail hab hbc ih => exact inv_step input w _ _ hbc ih

/-- In a duplicate-free list every member has count one. -/
theorem count_eq_one_of_mem_nodup (l : List (List Char)) (h : l.Nodup)
    (x : List Char) (hx : x ∈ l) : l.count x = 1 := by
  induction l with
  | nil => simp at hx
  | cons a tl ih =>
    rcases List.mem_cons.mp hx with rfl | hx'
    · rw [List.count_cons_self,
          List.count_eq_zero.mpr (List.nodup_cons.mp h).1]
    · have hne : x ≠ a := by
        intro he
        subst he
        exact (List.nodup_cons.mp h).1 hx'
      rw [List.count_cons_of_ne hne, ih (List.nodup_cons.mp h).2 hx']

/-- C1: over every interleaving of a pool of `w` workers (1 ≤ w ≤ K) on a
duplicate-free input of K identifiers, the counters always sum to the
number of completed items (each completion increments exactly one
counter), neither counter ever exceeds K at any reachable state, and once
all workers have terminated the success and failure counters sum to K and
the processed log is a permutation of the input containing every
identifier exactly once. -/
theorem worker_pool_accounting (input : List (List Char)) (w : Nat)
    (s : PoolState) (hw : 1 ≤ w) (_hwk : w ≤ input.length)
    (hnd : input.Nodup)
    (hr : Relation.ReflTransGen PoolStep (initState input w) s) :
    s.ok + s.fail = s.processed.length ∧
    s.ok + s.fail ≤ input.length ∧
    s.ok ≤ input.length ∧ s.fail ≤ input.length ∧
    (Terminal s →
      s.ok + s.fail = input.length ∧
      s.processed.Perm input ∧
      ∀ x ∈ input, s.processed.count x = 1) := by
  obtain ⟨hlen, hdone, hperm, hcnt⟩ := inv_reachable input w s hr
  have hple : s.processed.length ≤ input.length := by
    have hl := hperm.length_eq
    simp only [List.length_append] at hl
    omega
  refine ⟨hcnt, by omega, by omega, by omega, ?_⟩
  intro hterm
  have hwne : s.workers ≠ [] := by
    intro h0
    rw [h0] at hlen
    simp at hlen
    omega
  have hq : s.queue = [] := by
    obtain ⟨st, hst⟩ := List.exists_mem_of_ne_nil s.workers hwne
    exact hdone ⟨st, hst, hterm st hst⟩
  have hb : busyItems s.workers = [] := busyItems_eq_nil _ hterm
  rw [hq, hb, List.nil_append, List.nil_append] at hperm
  refine ⟨by rw [hcnt, hperm.length_eq], hperm, ?_⟩
  intro x hx
  exact count_eq_one_of_mem_nodup s.processed (hperm.nodup_iff.mpr hnd) x
    (hperm.mem_iff.mpr hx)

/-- C1 witness: a concrete complete run with one worker and one item,
reaching the terminal state through pull, finish and exit steps. -/
theorem worker_pool_accounting_witness :
    (1 ≤ 1 ∧ 1 ≤ ([cs "a"] : List (List Char)).length ∧
      ([cs "a"] : List (List Char)).Nodup ∧
      Terminal ⟨[], [WStatus.done], 1, 0, [cs "a"]⟩) ∧
    ((1 : Nat) + 0 = ([cs "a"] : List (List Char)).length ∧
      ([cs "a"] : List (List Char)).Perm [cs "a"] ∧
      ∀ x ∈ ([cs "a"] : List (List Char)), ([cs "a"] : List (List Char)).count x = 1) := by
  have h1 : PoolStep (initState [cs "a"] 1) ⟨[], [WStatus.busy (cs "a")], 0, 0, []⟩ :=
    PoolStep.pull (initState [cs "a"] 1) 0 (cs "a") [] rfl rfl
  have h2 : PoolStep (⟨[], [WStatus.busy (cs "a")], 0, 0, []⟩ : PoolState)
      ⟨[], [WStatus.idle], 1, 0, [cs "a"]⟩ :=
    PoolStep.finish ⟨[], [WStatus.busy (cs "a")], 0, 0, []⟩ 0 (cs "a") true rfl
  have h3 : PoolStep (⟨[], [WStatus.idle], 1, 0, [cs "a"]⟩ : PoolState)
      ⟨[], [WStatus.done], 1, 0, [cs "a"]⟩ :=
    PoolStep.exit ⟨[], [WStatus.idle], 1, 0, [cs "a"]⟩ 0 rfl rfl
  have htr : Relation.ReflTransGen PoolStep (initState [cs "a"] 1)
      ⟨[], [WStatus.done], 1, 0, [cs "a"]⟩ :=
    Relation.ReflTransGen.head h1 (Relation.ReflTransGen.head h2
      (Relation.ReflTransGen.single h3))
  have happ := worker_pool_accounting [cs "a"] 1 ⟨[], [WStatus.done], 1, 0, [cs "a"]⟩
    (le_refl 1) (by decide) (by decide) htr
  have hterm : Terminal ⟨[], [WStatus.done], 1, 0, [cs "a"]⟩ := by
    intro st hst
    simpa using hst
  obtain ⟨hsum, hperm, hcount⟩ := happ.2.2.2.2 hterm
  exact ⟨⟨le_refl 1, by decide, by decide, hterm⟩, ⟨hsum, hperm, hcount⟩⟩

end Omnipub
